import Mathlib

/-!
Verification of the Jira-leaderboard "movers" transition-aggregation pipeline.

The definitions below are a shallow embedding of the JavaScript in
`server.js` and `netlify/functions/movers.js` (the two files contain
near-identical copies of the aggregation core).  JS strings are modelled by
`String` (operated on through their character lists, so that everything
reduces in the kernel), JS numbers by `Int`/`Nat`, nullable values by
`Option`, the `Map` used for tallies and the cache by association lists that
mimic `Map.get`/`Map.set`/`Map.delete` (insert-preserves-position, append on
new key), and `Date` instants by `Int` milliseconds, with an unparseable
date (`NaN`) modelled as `none`.
-/

/-- Characters are compared through their code points. -/
def chLt (a b : Char) : Bool := decide (a.toNat < b.toNat)

/-- JS `String.prototype.trim` on a character list: drop whitespace at both ends. -/
def trimChars (cs : List Char) : List Char :=
  ((cs.dropWhile Char.isWhitespace).reverse.dropWhile Char.isWhitespace).reverse

/-- JS `trim` on strings. -/
def jsTrim (s : String) : String := String.mk (trimChars s.data)

/-- ASCII lowering of one character (model of JS `toLowerCase` on the
status-name alphabet). -/
def jsLowerChar (c : Char) : Char :=
  if 65 ≤ c.toNat && c.toNat ≤ 90 then Char.ofNat (c.toNat + 32) else c

/-- JS `String.prototype.toLowerCase` (ASCII model). -/
def jsLower (s : String) : String := String.mk (s.data.map jsLowerChar)

/-- Three-way lexicographic comparison of character lists by code point. -/
def cmpChars : List Char → List Char → Ordering
  | [], [] => Ordering.eq
  | [], _ :: _ => Ordering.lt
  | _ :: _, [] => Ordering.gt
  | a :: as, b :: bs =>
      if a.toNat < b.toNat then Ordering.lt
      else if b.toNat < a.toNat then Ordering.gt
      else cmpChars as bs

/-- `a ≤ b` in the lexicographic string order used for ranking tie-breaks
(model of the sort comparator's `localeCompare`). -/
def keyLe (a b : String) : Bool :=
  match cmpChars a.data b.data with
  | Ordering.gt => false
  | _ => true

/-- Decimal digit test on the code point (the regex class `\d`). -/
def isDigitCh (c : Char) : Bool := 48 ≤ c.toNat && c.toNat ≤ 57

/-- The regex test `/^\d+$/`: non-empty and all decimal digits. -/
def isDigitsStr (s : String) : Bool :=
  decide (s.data ≠ []) && s.data.all isDigitCh

/-- Numeric value of a non-empty digit list. -/
def digitsToNat (ds : List Char) : Nat :=
  ds.foldl (fun a c => a * 10 + (c.toNat - 48)) 0

/-- JS `parseInt(s, 10)`: skip leading whitespace, optional sign, then the
maximal digit prefix; `none` models `NaN` (no digits found). -/
def parseIntJS (s : String) : Option Int :=
  let cs := s.data.dropWhile Char.isWhitespace
  let signAndRest : Int × List Char :=
    match cs with
    | [] => (1, [])
    | c :: rest =>
        if c = '-' then (-1, rest)
        else if c = '+' then (1, rest)
        else (1, c :: rest)
  let ds := signAndRest.2.takeWhile isDigitCh
  if ds = [] then none else some (signAndRest.1 * (digitsToNat ds : Int))

/-- First character test. -/
def headIs (c : Char) (cs : List Char) : Bool :=
  match cs with
  | [] => false
  | x :: _ => decide (x = c)

/-- Last character test. -/
def lastIs (c : Char) (cs : List Char) : Bool := headIs c cs.reverse

/-- The quote-stripping step of `cleanEnv`: drop one layer of matching
single or double quotes (`s.slice(1, -1)`). -/
def stripQuotes (t : List Char) : List Char :=
  if (headIs (Char.ofNat 34) t && lastIs (Char.ofNat 34) t)
      || (headIs (Char.ofNat 39) t && lastIs (Char.ofNat 39) t) then
    (t.drop 1).dropLast
  else t

/-- `cleanEnv` from the source: trim, strip one layer of matching single or
double quotes, trim again. -/
def cleanEnv (v : String) : String :=
  String.mk (trimChars (stripQuotes (trimChars v.data)))

/-- The regex test `/^https?:\/\//i`. -/
def hasUrlScheme (s : String) : Bool :=
  let l := s.data.map jsLowerChar
  List.isPrefixOf "http://".data l || List.isPrefixOf "https://".data l

/-- Split a character list on a separator character. -/
def splitOnChar (c : Char) : List Char → List (List Char)
  | [] => [[]]
  | x :: xs =>
      let r := splitOnChar c xs
      if x = c then [] :: r
      else
        match r with
        | [] => [[x]]
        | y :: ys => (x :: y) :: ys

/-- Hex digit value. -/
def hexVal (c : Char) : Option Nat :=
  if 48 ≤ c.toNat && c.toNat ≤ 57 then some (c.toNat - 48)
  else if 65 ≤ c.toNat && c.toNat ≤ 70 then some (c.toNat - 55)
  else if 97 ≤ c.toNat && c.toNat ≤ 102 then some (c.toNat - 87)
  else none

/-- Forgiving query-string decoding as performed by `URLSearchParams`:
`+` becomes a space, a valid `%XX` escape becomes the escaped byte,
anything else passes through.  Escaped bytes are mapped to code points
directly, which agrees with the real UTF-8 decoding exactly for ASCII
escapes (`XX < 0x80`); the theorems below that depend on a decoded value
therefore constrain it to ASCII. -/
def percentDecode : List Char → List Char
  | [] => []
  | '+' :: rest => ' ' :: percentDecode rest
  | '%' :: a :: b :: rest =>
      match hexVal a, hexVal b with
      | some ha, some hb => Char.ofNat (16 * ha + hb) :: percentDecode rest
      | _, _ => '%' :: percentDecode (a :: b :: rest)
  | c :: rest => c :: percentDecode rest

/-- The remainder after the first `?`, or `none` when there is none. -/
def afterQuestionMark : List Char → Option (List Char)
  | [] => none
  | c :: rest => if c = '?' then some rest else afterQuestionMark rest

/-- The query portion of a URL string.  The WHATWG parser makes everything
after the first `#` the fragment, so the query is what follows the first
`?` of the pre-fragment part; a `?` that only appears inside the fragment
yields no query. -/
def queryOf (cs : List Char) : Option (List Char) :=
  afterQuestionMark (cs.takeWhile (fun d => !decide (d = '#')))

/-- The part of a URL after the `//` that follows the scheme. -/
def afterDoubleSlash : List Char → List Char
  | [] => []
  | '/' :: '/' :: rest => rest
  | _ :: rest => afterDoubleSlash rest

/-- The authority of a scheme-prefixed URL: everything after `//` up to
the first `/`, `?`, or `#`. -/
def urlHost (cs : List Char) : List Char :=
  (afterDoubleSlash cs).takeWhile
    (fun c => !(decide (c = '/') || decide (c = '?') || decide (c = '#')))

/-- ASCII letter test. -/
def isAlphaCh (c : Char) : Bool :=
  (65 ≤ c.toNat && c.toNat ≤ 90) || (97 ≤ c.toNat && c.toNat ≤ 122)

/-- Characters allowed after the first one in a simple host label. -/
def labelChar (c : Char) : Bool := isAlphaCh c || isDigitCh c || decide (c = '-')

/-- One dot-separated label of a simple host: non-empty, letter-initial,
then letters/digits/hyphens, and not a punycode (`xn--`) label. -/
def simpleLabel (l : List Char) : Bool :=
  match l with
  | [] => false
  | c :: rest =>
      isAlphaCh c && rest.all labelChar &&
        !(List.isPrefixOf "xn--".data (l.map jsLowerChar))

/-- A simple well-formed host: non-empty and made of simple labels. -/
def simpleHost (h : List Char) : Bool :=
  decide (h ≠ []) && (splitOnChar '.' h).all simpleLabel

/-- Model of `new URL(raw)` succeeding.  WHATWG parsing of an
`http(s)://` URL always succeeds when the authority is a simple host
(letter-initial alphanumeric/hyphen labels: no empty host, no port or
userinfo, no IPv4/punycode interpretation, nothing the host-parser can
reject), and then the parsed query is exactly `queryOf`.  The real parser
also accepts many URLs outside this class; the model conservatively takes
the `catch` fallback for those, and no theorem below says anything about
them. -/
def urlParseOk (s : String) : Bool := simpleHost (urlHost s.data)

/-- The key and the value of one `key=value` query pair. -/
def keyValOf (kv : List Char) : List Char × List Char :=
  (kv.takeWhile (fun d => !decide (d = '=')),
   (kv.dropWhile (fun d => !decide (d = '='))).drop 1)

/-- `new URL(url).searchParams.get(name)`: the decoded value of the first
query pair whose decoded key equals `name`. -/
def getQueryParam (url : String) (name : String) : Option String :=
  match queryOf url.data with
  | none => none
  | some q =>
      match (splitOnChar '&' q).find?
          (fun kv => decide (percentDecode (keyValOf kv).1 = name.data)) with
      | none => none
      | some kv => some (String.mk (percentDecode (keyValOf kv).2))

/-- `toJql` from the source: resolve a filter id / filter URL / raw JQL
input to the canonical query string.  The `try { new URL(raw) } catch`
around the URL branch is modelled by `urlParseOk`: parameters are
extracted only for URLs whose parse provably succeeds (see `urlParseOk`),
and the `catch`/fall-through path returns the normalized input
otherwise. -/
def toJql (filterOrJql : String) : String :=
  let raw := cleanEnv filterOrJql
  if raw = "" then ""
  else if isDigitsStr raw then "filter=" ++ raw
  else if hasUrlScheme raw then
    if urlParseOk raw then
      match getQueryParam raw "filter" with
      | some fid =>
          if isDigitsStr fid then "filter=" ++ fid
          else
            match getQueryParam raw "jql" with
            | some j => if j = "" then raw else j
            | none => raw
      | none =>
          match getQueryParam raw "jql" with
          | some j => if j = "" then raw else j
          | none => raw
    else raw
  else raw

/-! ## Data model of the changelog aggregation -/

/-- One entry of a history's `items` array.  `fromString`/`toString` are
nullable in the remote payload. -/
structure ChangeItem where
  field : String
  fromString : Option String
  toString : Option String
deriving DecidableEq, Repr

/-- The author object of one history entry; every identity field is
nullable. -/
structure JUser where
  displayName : Option String
  name : Option String
  accountId : Option String
deriving DecidableEq, Repr

/-- One changelog history entry.  `created` is the entry's timestamp after
`new Date(ts).getTime()`: `none` models `NaN` (unparseable). -/
structure History where
  author : Option JUser
  created : Option Int
  items : List ChangeItem
deriving DecidableEq, Repr

/-- One changelog page `{ total, values }` as returned by the remote
history endpoint. -/
structure Page where
  total : Nat
  values : List History
deriving DecidableEq, Repr

/-- An issue reference `{ key, id }` produced by the search endpoint. -/
structure IssueRef where
  id : String
  key : String
deriving DecidableEq, Repr

/-- JS `x || ''` for a nullable string. -/
def orEmpty : Option String → String
  | none => ""
  | some s => s

/-- JS falsiness of a nullable string: `null`/absent or empty. -/
def falsyStr : Option String → Bool
  | none => true
  | some s => decide (s = "")

/-- JS `x || fb` on a nullable string: keep `x` when truthy, else `fb`. -/
def jsOrElse (x : Option String) (fb : String) : String :=
  match x with
  | none => fb
  | some s => if s = "" then fb else s

/-- `h.author && (h.author.displayName || h.author.name || h.author.accountId) || 'Unknown'`. -/
def authorName (a : Option JUser) : String :=
  match a with
  | none => "Unknown"
  | some u => jsOrElse u.displayName (jsOrElse u.name (jsOrElse u.accountId "Unknown"))

/-!
Time bounds.  A bound (`since`/`until`) is a request string in the source;
it is modelled here already passed through JS date parsing:
the outer `Option` is `none` when the request string is absent or falsy
(the `since || until` guard), and the inner `Option` is `none` when the
supplied string does not parse (`NaN`, for which both `<` and `>`
comparisons are false in JS).
-/
abbrev TimeBound := Option (Option Int)

/-- `withinWindow(ts, since, until)` from the source: an unparseable event
timestamp never passes; a parseable one is excluded when it lies strictly
before a parsed `since` or strictly after a parsed `until`. -/
def withinWindow (t : Option Int) (since untl : TimeBound) : Bool :=
  match t with
  | none => false
  | some tv =>
      let sinceOk :=
        match since with
        | some (some sv) => decide (sv ≤ tv)
        | _ => true
      let untilOk :=
        match untl with
        | some (some uv) => decide (tv ≤ uv)
        | _ => true
      sinceOk && untilOk

/-- The guarded time check in the aggregation loop:
`if (since || until) { if (!withinWindow(created, since, until)) continue; }`. -/
def eventTimeOk (created : Option Int) (since untl : TimeBound) : Bool :=
  if since.isSome || untl.isSome then withinWindow created since untl else true

/-- A positive from/to constraint:
`!c || v.toLowerCase() === String(c).toLowerCase()`. -/
def passPos (c : Option String) (v : String) : Bool :=
  falsyStr c || decide (jsLower v = jsLower (orEmpty c))

/-- A negative from/to constraint:
`!c || v.toLowerCase() !== String(c).toLowerCase()`. -/
def passNeg (c : Option String) (v : String) : Bool :=
  falsyStr c || !decide (jsLower v = jsLower (orEmpty c))

/-- The from-value of a change item as the aggregation loop extracts it:
`(it.fromString || '').trim()`. -/
def eventFromValue (it : ChangeItem) : String := jsTrim (orEmpty it.fromString)

/-- The to-value of a change item as the aggregation loop extracts it:
`(it.toString || '').trim()`. -/
def eventToValue (it : ChangeItem) : String := jsTrim (orEmpty it.toString)

/-- The transition filter applied to one change item inside the aggregation
loop: skip non-`status` fields, then require `fromOk && toOk`. -/
def itemMatches (fN tN nfN ntN : Option String) (it : ChangeItem) : Bool :=
  if decide (it.field = "status") then
    let fromOk := passPos fN (eventFromValue it) && passNeg nfN (eventFromValue it)
    let toOk := passPos tN (eventToValue it) && passNeg ntN (eventToValue it)
    fromOk && toOk
  else false

/-- The author-name occurrences contributed by the histories, in loop
order: for every history passing the time window, one occurrence of its
author name per matching change item. -/
def matchingAuthors (fN tN nfN ntN : Option String) (since untl : TimeBound)
    (histories : List History) : List String :=
  histories.flatMap fun h =>
    if eventTimeOk h.created since untl then
      (h.items.filter (itemMatches fN tN nfN ntN)).map fun _ => authorName h.author
    else []

/-! ## Tally and ranking -/

/-- `counts.set(k, (counts.get(k) || 0) + 1)` on a JS `Map` modelled as an
association list: increment in place when the key is present (JS `Map.set`
keeps the original insertion position), otherwise append with count 1. -/
def bump : List (String × Nat) → String → List (String × Nat)
  | [], k => [(k, 1)]
  | (k2, v) :: rest, k =>
      if k2 = k then (k2, v + 1) :: rest else (k2, v) :: bump rest k

/-- The tally built by feeding author-name occurrences to the counts map in
order. -/
def tallyAuthors (ns : List String) : List (String × Nat) :=
  ns.foldl bump []

/-- The sort comparator `(a, b) => b.count - a.count || a.user.localeCompare(b.user)`
expressed as a `≤`-style relation: count descending, ties by key
ascending. -/
def moversLe (a b : String × Nat) : Bool :=
  if a.2 = b.2 then keyLe a.1 b.1 else decide (b.2 < a.2)

/-- `moversLe` as a relation. -/
def moversRel (a b : String × Nat) : Prop := moversLe a b = true

instance : DecidableRel moversRel := fun _ _ => instDecidableEqBool _ _

/-- `arr.sort((a, b) => b.count - a.count || a.user.localeCompare(b.user))`
on the tally entries.  The comparator is total and antisymmetric (see the
lemmas below), so the sorted result does not depend on the sorting
algorithm; a structural insertion sort stands in for the engine's sort. -/
def rankEntries (m : List (String × Nat)) : List (String × Nat) :=
  List.insertionSort moversRel m

/-- `arr.slice(0, e)` with JS semantics: a negative end counts from the end
of the array. -/
def sliceTo {α : Type} (l : List α) (e : Int) : List α :=
  if e < 0 then l.take (((l.length : Int) + e).toNat) else l.take e.toNat

/-! ## Per-issue pagination (`processIssue`)

A changelog responder is modelled as a function from `(startAt, maxResults)`
to the returned page; the loop always requests pages of size 100.  The
do/while loop is embedded with explicit fuel: `none` means the fuel ran out
before the loop's own stop conditions fired. -/

/-- The pagination loop body: fetch the page at `startAt`, accumulate its
histories, advance by the number of histories actually returned, stop on an
empty page or once the advanced offset reaches the page's reported total. -/
def paginateGo (resp : Nat → Nat → Page) : Nat → Nat → List History → Option (List History)
  | 0, _, _ => none
  | fuel + 1, startAt, acc =>
      if (resp startAt 100).values.length = 0 then some (acc ++ (resp startAt 100).values)
      else if startAt + (resp startAt 100).values.length < (resp startAt 100).total then
        paginateGo resp fuel (startAt + (resp startAt 100).values.length)
          (acc ++ (resp startAt 100).values)
      else some (acc ++ (resp startAt 100).values)

/-- Full pagination of one issue's changelog, starting at offset 0. -/
def paginate (resp : Nat → Nat → Page) (fuel : Nat) : Option (List History) :=
  paginateGo resp fuel 0 []

/-- Pagination reaches a result for some finite fuel. -/
def paginateTerminates (resp : Nat → Nat → Page) : Prop :=
  ∃ fuel hs, paginate resp fuel = some hs

/-- A finite-page responder (every page carries exactly one event) whose
reported total always exceeds the advanced offset. -/
def growingTotalResponder : Nat → Nat → Page :=
  fun startAt _ => { total := startAt + 2, values := [{ author := none, created := none, items := [] }] }

/-! ## Result cache -/

/-- JS `Map.get`. -/
def mapGet {α : Type} : List (String × α) → String → Option α
  | [], _ => none
  | (k2, v) :: rest, k => if k2 = k then some v else mapGet rest k

/-- JS `Map.set`: replace in place, else append. -/
def mapSet {α : Type} : List (String × α) → String → α → List (String × α)
  | [], k, v => [(k, v)]
  | (k2, v2) :: rest, k, v =>
      if k2 = k then (k2, v) :: rest else (k2, v2) :: mapSet rest k v

/-- JS `Map.delete`. -/
def mapDelete {α : Type} : List (String × α) → String → List (String × α)
  | [], _ => []
  | (k2, v2) :: rest, k =>
      if k2 = k then rest else (k2, v2) :: mapDelete rest k

/-- One cache entry `{ value, expireAt }`; `expireAt = 0` is the sentinel
for "never expires". -/
structure CacheEntry (α : Type) where
  value : α
  expireAt : Int
deriving DecidableEq, Repr

/-- `cacheSet(key, value, ttlMs)` at instant `now`:
`CACHE.set(key, { value, expireAt: ttlMs ? Date.now() + ttlMs : 0 })`. -/
def cacheSet {α : Type} (c : List (String × CacheEntry α)) (key : String)
    (v : α) (ttlMs now : Int) : List (String × CacheEntry α) :=
  mapSet c key { value := v, expireAt := if ttlMs = 0 then 0 else now + ttlMs }

/-- `cacheGet(key)` at instant `now`: a hit whose nonzero `expireAt` has
passed is deleted and reported absent.  Returns the looked-up value and the
cache state after the call. -/
def cacheGet {α : Type} (c : List (String × CacheEntry α)) (key : String)
    (now : Int) : Option α × List (String × CacheEntry α) :=
  match mapGet c key with
  | none => (none, c)
  | some hit =>
      if hit.expireAt ≠ 0 && decide (now > hit.expireAt) then (none, mapDelete c key)
      else (some hit.value, c)

/-! ## Request-handler numeric parameters -/

/-- `Math.min(parseInt(raw || dfltStr, 10) || dflt, cap)`: an absent or
empty raw value falls back to the default literal, a `NaN` or `0` parse
falls back to the default, and only the upper bound is clamped. -/
def numParam (raw : Option String) (dfltStr : String) (dflt cap : Int) : Int :=
  let s := match raw with
    | none => dfltStr
    | some v => if v = "" then dfltStr else v
  let n := match parseIntJS s with
    | none => dflt
    | some k => if k = 0 then dflt else k
  min n cap

/-- The `limit` request parameter. -/
def limitOf (raw : Option String) : Int := numParam raw "20" 20 100

/-- The `maxIssues` request parameter. -/
def maxIssuesOf (raw : Option String) : Int := numParam raw "150" 150 1000

/-- The `concurrency` request parameter (parsed but never used by the
aggregation). -/
def concurrencyOf (raw : Option String) : Int := numParam raw "0" 0 20

/-- The `ttl` request parameter, in milliseconds. -/
def ttlMsOf (raw : Option String) : Int := numParam raw "60" 60 600 * 1000

/-! ## Request handler (movers) -/

/-- The handler's validation prefix: a missing or falsy `filter` is a 400,
a `filter` that resolves to an empty query is a 400, otherwise the resolved
query proceeds to the remote search. -/
def moversValidate (filter : Option String) : Except (Nat × String) String :=
  match filter with
  | none => Except.error (400, "Missing required query param: filter")
  | some f =>
      if f = "" then Except.error (400, "Missing required query param: filter")
      else
        let jqlOrFilter := toJql f
        if jqlOrFilter = "" then Except.error (400, "Invalid filter/JQL")
        else Except.ok jqlOrFilter

/-- The shape of a movers response. -/
inductive MoversResponse where
  | err (status : Nat) (msg : String)
  | ok (totalIssues : Nat) (users : List (String × Nat))
deriving DecidableEq, Repr

/-- Paginate every issue of the search result and concatenate the
histories; `none` when the fuel runs out on some issue. -/
def collectHistories (changelog : String → Nat → Nat → Page) (fuel : Nat) :
    List IssueRef → Option (List History)
  | [] => some []
  | i :: rest =>
      match paginate (changelog i.id) fuel, collectHistories changelog fuel rest with
      | some hs, some hss => some (hs ++ hss)
      | _, _ => none

/-- The movers request pipeline after the cache layer: validate the filter,
search the issue set, aggregate the transitions, rank, truncate.  The
remote collaborators are passed in as functions (`search` is
`searchIssues(jql, maxIssues)`, `changelog issueId startAt maxResults` is
`fetchChangelog`); a fuel exhaustion during pagination is reported as a
500-style failure. -/
def moversHandler (search : String → Int → List IssueRef)
    (changelog : String → Nat → Nat → Page) (fuel : Nat)
    (filter fromP toP notFromP notToP : Option String)
    (since untl : TimeBound) (limitRaw maxIssuesRaw : Option String) : MoversResponse :=
  match moversValidate filter with
  | Except.error e => MoversResponse.err e.1 e.2
  | Except.ok jql =>
      let issues := search jql (maxIssuesOf maxIssuesRaw)
      match collectHistories changelog fuel issues with
      | none => MoversResponse.err 500 "changelog pagination did not finish"
      | some hists =>
          let ranked := rankEntries (tallyAuthors
            (matchingAuthors fromP toP notFromP notToP since untl hists))
          MoversResponse.ok issues.length (sliceTo ranked (limitOf limitRaw))

/-! ## Bounded-concurrency fan-out (`mapLimit`)

`mapLimit(arr, limit, iter)` keeps a set of pending per-item promises; the
driver loop starts the next item's pipeline only while fewer than `limit`
promises are pending (when the set reaches `limit` it awaits a completion,
whose `finally` removes the settled promise before the loop resumes).  That
scheduling is modelled as a transition system: a `start` step moves the
next queued item into the in-flight set and can fire only while the
in-flight set is below the bound, a `finish` step removes any in-flight
item. -/

structure PoolState (α : Type) where
  queued : List α
  inflight : List α
  finished : List α
deriving Repr

inductive PoolStep (bound : Nat) : PoolState α → PoolState α → Prop where
  | start (x : α) (rest fl d : List α) :
      fl.length < bound →
      PoolStep bound ⟨x :: rest, fl, d⟩ ⟨rest, x :: fl, d⟩
  | finish (x : α) (q fl1 fl2 d : List α) :
      PoolStep bound ⟨q, fl1 ++ x :: fl2, d⟩ ⟨q, fl1 ++ fl2, x :: d⟩

inductive PoolReach (bound : Nat) (init : PoolState α) : PoolState α → Prop where
  | refl : PoolReach bound init init
  | step {s s' : PoolState α} :
      PoolReach bound init s → PoolStep bound s s' → PoolReach bound init s'

/-- The initial state of an aggregation run over an issue list. -/
def poolInit (items : List α) : PoolState α := ⟨items, [], []⟩

/-- `Math.max(1, Math.min(10, Number(process.env.MOVERS_CONCURRENCY || 5)))`:
the aggregation's concurrency bound, from the server environment alone
(`none` models an unset or empty variable). -/
def moversConcurrency (env : Option Int) : Nat :=
  (max 1 (min 10 (match env with | none => 5 | some v => v))).toNat

/-- The bound actually handed to `mapLimit` by `countTransitionsByUser`:
the client-supplied `concurrency` request parameter is parsed by the
handler but never reaches the aggregation. -/
def aggregationPoolBound (env : Option Int) (_clientConcurrencyRaw : Option String) : Nat :=
  moversConcurrency env

/-! ## The ranking comparator is a total order -/

theorem stringDataEq {a b : String} (h : a.data = b.data) : a = b :=
  congrArg String.mk h

theorem charEqOfToNatEq {a b : Char} (h : a.toNat = b.toNat) : a = b :=
  Char.eq_of_val_eq (UInt32.ext h)

theorem cmpChars_eq_iff (as bs : List Char) : cmpChars as bs = Ordering.eq ↔ as = bs := by
  induction as generalizing bs with
  | nil => cases bs <;> simp [cmpChars]
  | cons a as ih =>
    cases bs with
    | nil => simp [cmpChars]
    | cons b bs =>
      by_cases h1 : a.toNat < b.toNat
      · have hne : a ≠ b := fun hab => absurd h1 (by simp [hab])
        simp [cmpChars, h1, hne]
      · by_cases h2 : b.toNat < a.toNat
        · have hne : a ≠ b := fun hab => absurd h2 (by simp [hab])
          simp [cmpChars, h1, h2, hne]
        · have hab : a = b :=
            charEqOfToNatEq (Nat.le_antisymm (Nat.not_lt.mp h2) (Nat.not_lt.mp h1))
          simp [cmpChars, h1, h2, hab, ih]

theorem cmpChars_swap (as bs : List Char) : cmpChars bs as = (cmpChars as bs).swap := by
  induction as generalizing bs with
  | nil => cases bs <;> simp [cmpChars, Ordering.swap]
  | cons a as ih =>
    cases bs with
    | nil => simp [cmpChars, Ordering.swap]
    | cons b bs =>
      by_cases h1 : a.toNat < b.toNat
      · have h2 : ¬ b.toNat < a.toNat := Nat.lt_asymm h1
        simp [cmpChars, h1, h2, Ordering.swap]
      · by_cases h2 : b.toNat < a.toNat
        · simp [cmpChars, h1, h2, Ordering.swap]
        · simp [cmpChars, h1, h2, ih]

theorem cmpChars_lt_trans {as bs cs : List Char}
    (h1 : cmpChars as bs = Ordering.lt) (h2 : cmpChars bs cs = Ordering.lt) :
    cmpChars as cs = Ordering.lt := by
  induction as generalizing bs cs with
  | nil =>
    cases bs with
    | nil => simp [cmpChars] at h1
    | cons b bs =>
      cases cs with
      | nil => simp [cmpChars] at h2
      | cons c cs => simp [cmpChars]
  | cons a as ih =>
    cases bs with
    | nil => simp [cmpChars] at h1
    | cons b bs =>
      cases cs with
      | nil => simp [cmpChars] at h2
      | cons c cs =>
        by_cases hab1 : a.toNat < b.toNat
        · by_cases hbc1 : b.toNat < c.toNat
          · simp [cmpChars, Nat.lt_trans hab1 hbc1]
          · by_cases hbc2 : c.toNat < b.toNat
            · simp [cmpChars, hbc1, hbc2] at h2
            · have hbc : b.toNat = c.toNat :=
                Nat.le_antisymm (Nat.not_lt.mp hbc2) (Nat.not_lt.mp hbc1)
              have hac : a.toNat < c.toNat := by rw [← hbc]; exact hab1
              simp [cmpChars, hac]
        · by_cases hab2 : b.toNat < a.toNat
          · simp [cmpChars, hab1, hab2] at h1
          · have hab : a.toNat = b.toNat :=
              Nat.le_antisymm (Nat.not_lt.mp hab2) (Nat.not_lt.mp hab1)
            by_cases hbc1 : b.toNat < c.toNat
            · have hac : a.toNat < c.toNat := by rw [hab]; exact hbc1
              simp [cmpChars, hac]
            · by_cases hbc2 : c.toNat < b.toNat
              · simp [cmpChars, hbc1, hbc2] at h2
              · have hbc : b.toNat = c.toNat :=
                  Nat.le_antisymm (Nat.not_lt.mp hbc2) (Nat.not_lt.mp hbc1)
                have hac : a.toNat = c.toNat := hab.trans hbc
                have hac1 : ¬ a.toNat < c.toNat := by simp [hac]
                have hac2 : ¬ c.toNat < a.toNat := by simp [hac]
                simp [cmpChars, hab1, hab2] at h1
                simp [cmpChars, hbc1, hbc2] at h2
                simp [cmpChars, hac1, hac2]
                exact ih h1 h2

theorem keyLe_iff (a b : String) : keyLe a b = true ↔ cmpChars a.data b.data ≠ Ordering.gt := by
  unfold keyLe
  rcases h : cmpChars a.data b.data <;> simp [h]

theorem keyLe_total (a b : String) : keyLe a b = true ∨ keyLe b a = true := by
  rw [keyLe_iff, keyLe_iff, cmpChars_swap a.data b.data]
  rcases hab : cmpChars a.data b.data <;> simp [hab, Ordering.swap]

theorem keyLe_trans {a b c : String} (h1 : keyLe a b = true) (h2 : keyLe b c = true) :
    keyLe a c = true := by
  rw [keyLe_iff] at h1 h2 ⊢
  rcases hab : cmpChars a.data b.data with _ | _ | _
  · rcases hbc : cmpChars b.data c.data with _ | _ | _
    · simp [cmpChars_lt_trans hab hbc]
    · have hbceq : b = c := stringDataEq ((cmpChars_eq_iff _ _).mp hbc)
      rw [← hbceq]
      simp [hab]
    · exact absurd hbc h2
  · have habeq : a = b := stringDataEq ((cmpChars_eq_iff _ _).mp hab)
    rw [habeq]
    exact h2
  · exact absurd hab h1

theorem keyLe_antisymm {a b : String} (h1 : keyLe a b = true) (h2 : keyLe b a = true) :
    a = b := by
  rw [keyLe_iff] at h1 h2
  rw [cmpChars_swap a.data b.data] at h2
  rcases hab : cmpChars a.data b.data with _ | _ | _
  · rw [hab] at h2
    simp [Ordering.swap] at h2
  · exact stringDataEq ((cmpChars_eq_iff _ _).mp hab)
  · exact absurd hab h1

theorem moversRel_iff (a b : String × Nat) :
    moversRel a b ↔ (a.2 = b.2 ∧ keyLe a.1 b.1 = true) ∨ b.2 < a.2 := by
  unfold moversRel moversLe
  by_cases h : a.2 = b.2 <;> simp [h, lt_irrefl]

instance : IsTotal (String × Nat) moversRel := by
  constructor
  intro a b
  rw [moversRel_iff, moversRel_iff]
  by_cases h : a.2 = b.2
  · rcases keyLe_total a.1 b.1 with hk | hk
    · exact Or.inl (Or.inl ⟨h, hk⟩)
    · exact Or.inr (Or.inl ⟨h.symm, hk⟩)
  · rcases Nat.lt_or_ge a.2 b.2 with hlt | hge
    · exact Or.inr (Or.inr hlt)
    · exact Or.inl (Or.inr (Nat.lt_of_le_of_ne hge (Ne.symm h)))

instance : IsTrans (String × Nat) moversRel := by
  constructor
  intro a b c h1 h2
  rw [moversRel_iff] at h1 h2 ⊢
  rcases h1 with ⟨he1, hk1⟩ | hl1
  · rcases h2 with ⟨he2, hk2⟩ | hl2
    · exact Or.inl ⟨he1.trans he2, keyLe_trans hk1 hk2⟩
    · exact Or.inr (he1 ▸ hl2)
  · rcases h2 with ⟨he2, _⟩ | hl2
    · exact Or.inr (he2 ▸ hl1)
    · exact Or.inr (Nat.lt_trans hl2 hl1)

instance : IsAntisymm (String × Nat) moversRel := by
  constructor
  intro a b h1 h2
  rw [moversRel_iff] at h1 h2
  rcases h1 with ⟨he1, hk1⟩ | hl1
  · rcases h2 with ⟨_, hk2⟩ | hl2
    · exact Prod.ext (keyLe_antisymm hk1 hk2) he1
    · exact absurd (he1 ▸ hl2) (lt_irrefl _)
  · rcases h2 with ⟨he2, _⟩ | hl2
    · exact absurd (he2 ▸ hl1) (lt_irrefl _)
    · exact absurd (Nat.lt_trans hl1 hl2) (lt_irrefl _)

theorem rankEntries_sorted (m : List (String × Nat)) :
    List.Sorted moversRel (rankEntries m) :=
  List.sorted_insertionSort moversRel m

theorem rankEntries_perm (m : List (String × Nat)) :
    List.Perm (rankEntries m) m :=
  List.perm_insertionSort moversRel m

theorem rankEntries_eq_of_perm {m1 m2 : List (String × Nat)} (h : List.Perm m1 m2) :
    rankEntries m1 = rankEntries m2 :=
  List.eq_of_perm_of_sorted
    ((rankEntries_perm m1).trans (h.trans (rankEntries_perm m2).symm))
    (rankEntries_sorted m1) (rankEntries_sorted m2)

/-! ## The tally map is insensitive to accumulation order -/

/-- The tally map, like a JS `Map`, holds each key at most once. -/
def keysNodup (m : List (String × Nat)) : Prop := (m.map Prod.fst).Nodup

theorem bump_fst (m : List (String × Nat)) (k : String) :
    (bump m k).map Prod.fst =
      if k ∈ m.map Prod.fst then m.map Prod.fst else m.map Prod.fst ++ [k] := by
  induction m with
  | nil => simp [bump]
  | cons e rest ih =>
    obtain ⟨k2, v⟩ := e
    by_cases h : k2 = k
    · simp [bump, h]
    · have hne : ¬ k = k2 := fun he => h he.symm
      by_cases h2 : k ∈ rest.map Prod.fst
      · simp [bump, h, ih, h2, hne]
      · simp [bump, h, ih, h2, hne]

theorem keysNodup_bump (k : String) {m : List (String × Nat)} (h : keysNodup m) :
    keysNodup (bump m k) := by
  unfold keysNodup at h ⊢
  rw [bump_fst]
  by_cases h2 : k ∈ m.map Prod.fst
  · simp [h2, h]
  · simp only [h2, if_false, List.nodup_append, List.nodup_cons]
    refine ⟨h, by simp, ?_⟩
    intro a ha hak
    simp at hak
    exact h2 (hak ▸ ha)

theorem keysNodup_perm {m1 m2 : List (String × Nat)} (hp : List.Perm m1 m2)
    (h : keysNodup m1) : keysNodup m2 :=
  (hp.map Prod.fst).nodup h

theorem bump_perm_congr (k : String) {m1 m2 : List (String × Nat)}
    (hp : List.Perm m1 m2) : keysNodup m1 → List.Perm (bump m1 k) (bump m2 k) := by
  induction hp with
  | nil => intro _; exact List.Perm.refl _
  | cons x hp ih =>
    intro hn
    obtain ⟨k2, v⟩ := x
    simp only [keysNodup, List.map_cons, List.nodup_cons] at hn
    by_cases h : k2 = k
    · simpa [bump, h] using List.Perm.cons (k2, v + 1) hp
    · simpa [bump, h] using List.Perm.cons (k2, v) (ih (by simpa [keysNodup] using hn.2))
  | swap x y t =>
    intro hn
    obtain ⟨ka, va⟩ := x
    obtain ⟨kb, vb⟩ := y
    have hne : kb ≠ ka := by
      unfold keysNodup at hn
      simp only [List.map_cons, List.nodup_cons, List.mem_cons] at hn
      exact fun he => hn.1 (Or.inl he)
    by_cases h1 : kb = k
    · have h2 : ¬ ka = k := fun he => hne (h1.trans he.symm)
      simp [bump, h1, h2]
      exact List.Perm.swap _ _ _
    · by_cases h2 : ka = k
      · simp [bump, h1, h2]
        exact List.Perm.swap _ _ _
      · simp [bump, h1, h2]
        exact List.Perm.swap _ _ _
  | trans hp1 _ ih1 ih2 =>
    intro hn
    exact (ih1 hn).trans (ih2 (keysNodup_perm hp1 hn))

theorem bump_comm (m : List (String × Nat)) (x y : String) :
    List.Perm (bump (bump m x) y) (bump (bump m y) x) := by
  by_cases hxy : x = y
  · subst hxy
    exact List.Perm.refl _
  · have hyx : ¬ y = x := fun he => hxy he.symm
    induction m with
    | nil =>
      simp [bump, hxy, hyx]
      exact List.Perm.swap _ _ _
    | cons e rest ih =>
      obtain ⟨k, v⟩ := e
      by_cases hkx : k = x
      · have hky : ¬ k = y := fun he => hxy (hkx.symm.trans he)
        simp [bump, hkx, hky, hxy, hyx]
      · by_cases hky : k = y
        · simp [bump, hkx, hky, hxy, hyx]
        · simp only [bump, hkx, hky, if_false]
          exact List.Perm.cons _ ih

theorem foldl_bump_congr (ns : List String) :
    ∀ {m1 m2 : List (String × Nat)}, List.Perm m1 m2 → keysNodup m1 →
      List.Perm (ns.foldl bump m1) (ns.foldl bump m2) := by
  induction ns with
  | nil =>
    intro m1 m2 hp _
    simpa using hp
  | cons x ns ih =>
    intro m1 m2 hp hn
    simp only [List.foldl_cons]
    exact ih (bump_perm_congr x hp hn) (keysNodup_bump x hn)

theorem foldl_bump_perm {ns1 ns2 : List String} (hp : List.Perm ns1 ns2) :
    ∀ m : List (String × Nat), keysNodup m →
      List.Perm (ns1.foldl bump m) (ns2.foldl bump m) := by
  induction hp with
  | nil =>
    intro m _
    exact List.Perm.refl _
  | cons x _ ih =>
    intro m hn
    simpa using ih (bump m x) (keysNodup_bump x hn)
  | swap x y t =>
    intro m hn
    simp only [List.foldl_cons]
    exact foldl_bump_congr t (bump_comm m y x)
      (keysNodup_bump x (keysNodup_bump y hn))
  | trans _ _ ih1 ih2 =>
    intro m hn
    exact (ih1 m hn).trans (ih2 m hn)

theorem keysNodup_foldl (ns : List String) :
    ∀ m : List (String × Nat), keysNodup m → keysNodup (ns.foldl bump m) := by
  induction ns with
  | nil => intro m hn; simpa using hn
  | cons x ns ih =>
    intro m hn
    simpa using ih (bump m x) (keysNodup_bump x hn)

theorem keysNodup_tallyAuthors (ns : List String) : keysNodup (tallyAuthors ns) :=
  keysNodup_foldl ns [] (by simp [keysNodup])

theorem tallyAuthors_perm {ns1 ns2 : List String} (hp : List.Perm ns1 ns2) :
    List.Perm (tallyAuthors ns1) (tallyAuthors ns2) :=
  foldl_bump_perm hp [] (by simp [keysNodup])

/-! ## Pagination lemmas -/

theorem paginateGo_empty_page {resp : Nat → Nat → Page} {fuel startAt : Nat}
    {acc : List History} (h : (resp startAt 100).values = []) :
    paginateGo resp (fuel + 1) startAt acc = some acc := by
  simp [paginateGo, h]

theorem paginateGo_isSome_of_total_le {resp : Nat → Nat → Page} {T : Nat}
    (hT : ∀ s, (resp s 100).total ≤ T) :
    ∀ fuel s acc, T ≤ s + fuel → 1 ≤ fuel → (paginateGo resp fuel s acc).isSome = true := by
  intro fuel
  induction fuel with
  | zero =>
    intro s acc _ h1
    exact absurd h1 (by simp)
  | succ f ih =>
    intro s acc hle _
    by_cases h0 : (resp s 100).values.length = 0
    · simp [paginateGo, h0]
    · by_cases h1 : s + (resp s 100).values.length < (resp s 100).total
      · have hlen : 1 ≤ (resp s 100).values.length := Nat.one_le_iff_ne_zero.mpr h0
        have htot := hT s
        have hf1 : 1 ≤ f := by omega
        have hle2 : T ≤ s + (resp s 100).values.length + f := by omega
        simpa [paginateGo, h0, h1] using
          ih (s + (resp s 100).values.length) (acc ++ (resp s 100).values) hle2 hf1
      · simp [paginateGo, h0, h1]

theorem paginateGo_growing_none :
    ∀ fuel s acc, paginateGo growingTotalResponder fuel s acc = none := by
  intro fuel
  induction fuel with
  | zero => intro s acc; rfl
  | succ f ih =>
    intro s acc
    simpa [paginateGo, growingTotalResponder] using ih (s + 1) _

/-! ## Concurrency-pool lemmas -/

theorem poolReach_inflight_le {α : Type} {B : Nat} {items : List α} {s : PoolState α}
    (h : PoolReach B (poolInit items) s) : s.inflight.length ≤ B := by
  induction h with
  | refl => simp [poolInit]
  | step _ hstep ih =>
    cases hstep with
    | start x rest fl d hlt => simpa using hlt
    | finish x q fl1 fl2 d =>
      simp only [List.length_append, List.length_cons] at ih ⊢
      omega

/-! ## Cache map lemmas -/

theorem mapGet_mapSet {α : Type} (c : List (String × α)) (k : String) (v : α) :
    mapGet (mapSet c k v) k = some v := by
  induction c with
  | nil => simp [mapSet, mapGet]
  | cons e rest ih =>
    obtain ⟨k2, v2⟩ := e
    by_cases h : k2 = k
    · simp [mapSet, mapGet, h]
    · simp [mapSet, mapGet, h, ih]

theorem mapSet_fst {α : Type} (c : List (String × α)) (k : String) (v : α) :
    (mapSet c k v).map Prod.fst =
      if k ∈ c.map Prod.fst then c.map Prod.fst else c.map Prod.fst ++ [k] := by
  induction c with
  | nil => simp [mapSet]
  | cons e rest ih =>
    obtain ⟨k2, v2⟩ := e
    by_cases h : k2 = k
    · simp [mapSet, h]
    · have hne : ¬ k = k2 := fun he => h he.symm
      by_cases h2 : k ∈ rest.map Prod.fst
      · simp [mapSet, h, ih, h2, hne]
      · simp [mapSet, h, ih, h2, hne]

theorem mapSet_keys_nodup {α : Type} {c : List (String × α)} (k : String) (v : α)
    (h : (c.map Prod.fst).Nodup) : ((mapSet c k v).map Prod.fst).Nodup := by
  rw [mapSet_fst]
  by_cases h2 : k ∈ c.map Prod.fst
  · simp [h2, h]
  · simp only [h2, if_false, List.nodup_append, List.nodup_cons]
    refine ⟨h, by simp, ?_⟩
    intro a ha hak
    simp at hak
    exact h2 (hak ▸ ha)

theorem mapDelete_not_mem {α : Type} {c : List (String × α)} {k : String}
    (h : (c.map Prod.fst).Nodup) : k ∉ (mapDelete c k).map Prod.fst := by
  induction c with
  | nil => simp [mapDelete]
  | cons e rest ih =>
    obtain ⟨k2, v2⟩ := e
    simp only [List.map_cons, List.nodup_cons] at h
    by_cases hk : k2 = k
    · subst hk
      simpa [mapDelete] using h.1
    · have hne : ¬ k = k2 := fun he => hk he.symm
      simp only [mapDelete, hk, if_false, List.map_cons, List.mem_cons]
      push_neg
      exact ⟨hne, ih h.2⟩

theorem mapGet_eq_none_of_not_mem {α : Type} {c : List (String × α)} {k : String}
    (h : k ∉ c.map Prod.fst) : mapGet c k = none := by
  induction c with
  | nil => rfl
  | cons e rest ih =>
    obtain ⟨k2, v2⟩ := e
    simp only [List.map_cons, List.mem_cons] at h
    push_neg at h
    have hne : ¬ k2 = k := fun he => h.1 he.symm
    simp [mapGet, hne]
    exact ih h.2

/-! ## Query-resolution support lemmas -/

theorem trimChars_of_no_ws {cs : List Char} (h : ∀ c ∈ cs, c.isWhitespace = false) :
    trimChars cs = cs := by
  unfold trimChars
  have h1 : cs.dropWhile Char.isWhitespace = cs := by
    cases cs with
    | nil => rfl
    | cons c rest => simp [List.dropWhile_cons, h c (by simp)]
  rw [h1]
  have h2 : cs.reverse.dropWhile Char.isWhitespace = cs.reverse := by
    cases hr : cs.reverse with
    | nil => rfl
    | cons c rest =>
      have hc : c ∈ cs := by
        have hm : c ∈ cs.reverse := by rw [hr]; simp
        simpa using hm
      simp [List.dropWhile_cons, h c hc]
  rw [h2, List.reverse_reverse]

theorem isDigitCh_not_ws {c : Char} (h : isDigitCh c = true) : c.isWhitespace = false := by
  unfold isDigitCh at h
  simp only [Bool.and_eq_true, decide_eq_true_eq] at h
  cases hw : c.isWhitespace
  · rfl
  · exfalso
    unfold Char.isWhitespace at hw
    simp only [Bool.or_eq_true, decide_eq_true_eq] at hw
    rcases hw with ((h2 | h2) | h2) | h2 <;>
      (rw [h2] at h; exact absurd h (by decide))

theorem cleanEnv_of_digits {s : String} (h : isDigitsStr s = true) : cleanEnv s = s := by
  unfold isDigitsStr at h
  simp only [Bool.and_eq_true, decide_eq_true_eq, List.all_eq_true] at h
  obtain ⟨hne, hall⟩ := h
  have hnw : ∀ c ∈ s.data, c.isWhitespace = false := fun c hc => isDigitCh_not_ws (hall c hc)
  have ht : trimChars s.data = s.data := trimChars_of_no_ws hnw
  have hsq : stripQuotes s.data = s.data := by
    unfold stripQuotes
    cases hd : s.data with
    | nil => simp
    | cons c rest =>
      have hc : isDigitCh c = true := hall c (by rw [hd]; simp)
      unfold isDigitCh at hc
      simp only [Bool.and_eq_true, decide_eq_true_eq] at hc
      have h34 : ¬ c = Char.ofNat 34 := by
        intro he
        have h2 := congrArg Char.toNat he
        have h3 : (Char.ofNat 34).toNat = 34 := rfl
        rw [h3] at h2
        omega
      have h39 : ¬ c = Char.ofNat 39 := by
        intro he
        have h2 := congrArg Char.toNat he
        have h3 : (Char.ofNat 39).toNat = 39 := rfl
        rw [h3] at h2
        omega
      simp [headIs, h34, h39]
  unfold cleanEnv
  rw [ht, hsq, ht]

theorem string_ne_empty_of_data_ne {s : String} (h : s.data ≠ []) : s ≠ "" :=
  fun he => h (by rw [he])

theorem cleanEnv_of_blank {s : String} (h : jsTrim s = "") : cleanEnv s = "" := by
  have hd : trimChars s.data = [] := congrArg String.data h
  unfold cleanEnv
  rw [hd]
  rfl

theorem toJql_of_blank {s : String} (h : jsTrim s = "") : toJql s = "" := by
  unfold toJql
  rw [cleanEnv_of_blank h]
  rfl

theorem hasUrlScheme_empty_false : hasUrlScheme "" = false := rfl

/-! ## Claim theorems -/

theorem passPos_iff (c : Option String) (v : String) :
    passPos c v = true ↔ (∀ s, c = some s → s ≠ "" → jsLower v = jsLower s) := by
  cases c with
  | none => simp [passPos, falsyStr]
  | some s =>
    by_cases h : s = ""
    · simp [passPos, falsyStr, h]
    · simp [passPos, falsyStr, h, orEmpty]

theorem passNeg_iff (c : Option String) (v : String) :
    passNeg c v = true ↔ (∀ s, c = some s → s ≠ "" → jsLower v ≠ jsLower s) := by
  cases c with
  | none => simp [passNeg, falsyStr]
  | some s =>
    by_cases h : s = ""
    · simp [passNeg, falsyStr, h]
    · simp [passNeg, falsyStr, h, orEmpty]

/-- C1: the transition filter matches a change event exactly when the
event's field equals "status" and every present from/to constraint holds:
a set `fromValue` must equal the event's from-value case-insensitively, a
set `notFromValue` must differ from it case-insensitively, and
symmetrically for `toValue`/`notToValue`; an absent (or empty, hence JS
falsy) constraint is unconstrained.  The event's from/to values are the
trimmed `fromString`/`toString` fields, as the loop extracts them. -/
theorem C1_transition_filter (fN tN nfN ntN : Option String) (it : ChangeItem) :
    itemMatches fN tN nfN ntN it = true ↔
      (it.field = "status" ∧
       (∀ s, fN = some s → s ≠ "" → jsLower (eventFromValue it) = jsLower s) ∧
       (∀ s, nfN = some s → s ≠ "" → jsLower (eventFromValue it) ≠ jsLower s) ∧
       (∀ s, tN = some s → s ≠ "" → jsLower (eventToValue it) = jsLower s) ∧
       (∀ s, ntN = some s → s ≠ "" → jsLower (eventToValue it) ≠ jsLower s)) := by
  unfold itemMatches
  by_cases hf : it.field = "status"
  · simp [hf, passPos_iff, passNeg_iff, and_assoc]
  · simp [hf]

/-- C2: with neither bound supplied the time check is skipped entirely (any
event passes, even one whose timestamp does not parse); with at least one
parsed bound supplied an event passes exactly when its timestamp parses and
lies in the inclusive window, an open side being unconstrained. -/
theorem C2_time_window (t : Option Int) (sv uv : Int) :
    (eventTimeOk t none none = true) ∧
    (eventTimeOk t (some (some sv)) (some (some uv)) = true ↔
      ∃ x, t = some x ∧ sv ≤ x ∧ x ≤ uv) ∧
    (eventTimeOk t (some (some sv)) none = true ↔ ∃ x, t = some x ∧ sv ≤ x) ∧
    (eventTimeOk t none (some (some uv)) = true ↔ ∃ x, t = some x ∧ x ≤ uv) := by
  refine ⟨by simp [eventTimeOk], ?_, ?_, ?_⟩ <;> cases t <;>
    simp [eventTimeOk, withinWindow]

/-- The ordering the specification requires between two adjacent ranked
entries: strictly larger count first, equal counts ordered by key. -/
def rankedBefore (a b : String × Nat) : Prop :=
  b.2 < a.2 ∨ (a.2 = b.2 ∧ keyLe a.1 b.1 = true)

theorem sliceTo_sublist {α : Type} (l : List α) (e : Int) : (sliceTo l e).Sublist l := by
  unfold sliceTo
  split <;> exact List.take_sublist _ _

/-- C3: the ranked, limit-truncated result is sorted by count descending
with ties in ascending lexicographic key order, and its keys are pairwise
distinct (so equal-count entries are strictly ascending).  The tally keys
are user names in the per-actor mode and the `from→to` pair strings in
discovery mode; both modes sort with the same comparator. -/
theorem C3_ranking_sorted (ns : List String) (limit : Int) :
    List.Pairwise rankedBefore (sliceTo (rankEntries (tallyAuthors ns)) limit) ∧
    ((sliceTo (rankEntries (tallyAuthors ns)) limit).map Prod.fst).Nodup := by
  constructor
  · have hs : List.Pairwise moversRel (rankEntries (tallyAuthors ns)) :=
      rankEntries_sorted _
    have himp : List.Pairwise rankedBefore (rankEntries (tallyAuthors ns)) := by
      refine hs.imp ?_
      intro a b h
      rw [moversRel_iff] at h
      rcases h with ⟨he, hk⟩ | hl
      · exact Or.inr ⟨he, hk⟩
      · exact Or.inl hl
    exact himp.sublist (sliceTo_sublist _ _)
  · have h1 : keysNodup (tallyAuthors ns) := keysNodup_tallyAuthors ns
    have h2 : ((rankEntries (tallyAuthors ns)).map Prod.fst).Nodup :=
      (((rankEntries_perm (tallyAuthors ns)).map Prod.fst).symm).nodup h1
    exact h2.sublist ((sliceTo_sublist _ _).map Prod.fst)

/-- C4: the ranked result is invariant under permuting the change events
fed to the aggregation — the tally map may be built in any completion
order, but after sorting the outcome is a deterministic function of the
event multiset and the criteria. -/
theorem C4_order_independent (fN tN nfN ntN : Option String) (since untl : TimeBound)
    (hs1 hs2 : List History) (hp : List.Perm hs1 hs2) :
    rankEntries (tallyAuthors (matchingAuthors fN tN nfN ntN since untl hs1)) =
      rankEntries (tallyAuthors (matchingAuthors fN tN nfN ntN since untl hs2)) :=
  rankEntries_eq_of_perm (tallyAuthors_perm (List.Perm.flatMap_right _ hp))

/-- C4 witness: two orderings of the same two histories produce the same
ranked result. -/
theorem C4_witness :
    List.Perm
      [History.mk (some ⟨some "alice", none, none⟩) (some 5)
        [⟨"status", some "Open", some "Done"⟩],
       History.mk (some ⟨some "bob", none, none⟩) (some 6)
        [⟨"status", some "Open", some "Done"⟩]]
      [History.mk (some ⟨some "bob", none, none⟩) (some 6)
        [⟨"status", some "Open", some "Done"⟩],
       History.mk (some ⟨some "alice", none, none⟩) (some 5)
        [⟨"status", some "Open", some "Done"⟩]] ∧
    rankEntries (tallyAuthors (matchingAuthors none none none none none none
      [History.mk (some ⟨some "alice", none, none⟩) (some 5)
        [⟨"status", some "Open", some "Done"⟩],
       History.mk (some ⟨some "bob", none, none⟩) (some 6)
        [⟨"status", some "Open", some "Done"⟩]])) =
    rankEntries (tallyAuthors (matchingAuthors none none none none none none
      [History.mk (some ⟨some "bob", none, none⟩) (some 6)
        [⟨"status", some "Open", some "Done"⟩],
       History.mk (some ⟨some "alice", none, none⟩) (some 5)
        [⟨"status", some "Open", some "Done"⟩]])) :=
  ⟨by decide, C4_order_independent none none none none none none _ _ (by decide)⟩

/-- C5 counterexample: resolution is not the identity on every non-digit
non-URL non-empty input — the input is normalized first, so a string with
surrounding whitespace comes back trimmed, not unchanged. -/
theorem C5_counterexample : toJql " abc " = "abc" ∧ (" abc " : String) ≠ "abc" := by
  constructor
  · decide
  · decide

/-- C5 (amended): a digits-only input resolves to `filter=<id>`.  For a
URL input that parses (scheme plus simple well-formed host): a numeric
`filter` parameter in the pre-fragment query resolves to `filter=<id>`,
and otherwise a non-empty `jql` parameter (ASCII value) resolves to that
parameter's value.  A URL with an empty authority (which makes `new URL`
throw) or with no `?` before the first `#` (so the real query is empty)
resolves to its normalization.  Every other non-URL input with non-empty
normalization resolves to its normalized form `cleanEnv` (trimmed and
quote-stripped), which is the identity exactly on inputs that are already
clean. -/
theorem C5_amended :
    (∀ s : String, isDigitsStr s = true → toJql s = "filter=" ++ s) ∧
    (∀ s fid : String, isDigitsStr (cleanEnv s) = false →
      hasUrlScheme (cleanEnv s) = true → urlParseOk (cleanEnv s) = true →
      getQueryParam (cleanEnv s) "filter" = some fid → isDigitsStr fid = true →
      toJql s = "filter=" ++ fid) ∧
    (∀ s j : String, isDigitsStr (cleanEnv s) = false →
      hasUrlScheme (cleanEnv s) = true → urlParseOk (cleanEnv s) = true →
      (∀ fid, getQueryParam (cleanEnv s) "filter" = some fid → isDigitsStr fid = false) →
      getQueryParam (cleanEnv s) "jql" = some j → j ≠ "" →
      (∀ c ∈ j.data, c.toNat < 128) →
      toJql s = j) ∧
    (∀ s : String, isDigitsStr (cleanEnv s) = false →
      hasUrlScheme (cleanEnv s) = true → urlHost (cleanEnv s).data = [] →
      toJql s = cleanEnv s) ∧
    (∀ s : String, isDigitsStr (cleanEnv s) = false →
      hasUrlScheme (cleanEnv s) = true → queryOf (cleanEnv s).data = none →
      toJql s = cleanEnv s) ∧
    (∀ s : String, cleanEnv s ≠ "" → isDigitsStr (cleanEnv s) = false →
      hasUrlScheme (cleanEnv s) = false → toJql s = cleanEnv s) := by
  have hschemene : ∀ s : String, hasUrlScheme (cleanEnv s) = true → ¬ cleanEnv s = "" := by
    intro s hurl hr
    rw [hr] at hurl
    exact absurd hurl (by decide)
  refine ⟨?_, ?_, ?_, ?_, ?_, ?_⟩
  · intro s hdig
    have hce : cleanEnv s = s := cleanEnv_of_digits hdig
    have hne : s ≠ "" := by
      unfold isDigitsStr at hdig
      simp only [Bool.and_eq_true, decide_eq_true_eq] at hdig
      exact string_ne_empty_of_data_ne hdig.1
    unfold toJql
    rw [hce]
    simp [hne, hdig]
  · intro s fid hdig hurl hpok hfil hfdig
    unfold toJql
    simp [hschemene s hurl, hdig, hurl, hpok, hfil, hfdig]
  · intro s j hdig hurl hpok hnofid hjql hjne _
    unfold toJql
    rcases hf : getQueryParam (cleanEnv s) "filter" with _ | fid
    · simp [hschemene s hurl, hdig, hurl, hpok, hf, hjql, hjne]
    · simp [hschemene s hurl, hdig, hurl, hpok, hf, hnofid fid hf, hjql, hjne]
  · intro s hdig hurl hauth
    have hpok : urlParseOk (cleanEnv s) = false := by
      unfold urlParseOk
      rw [hauth]
      rfl
    unfold toJql
    simp [hschemene s hurl, hdig, hurl, hpok]
  · intro s hdig hurl hq
    have hgf : getQueryParam (cleanEnv s) "filter" = none := by
      unfold getQueryParam
      rw [hq]
    have hgj : getQueryParam (cleanEnv s) "jql" = none := by
      unfold getQueryParam
      rw [hq]
    unfold toJql
    cases hpok : urlParseOk (cleanEnv s) <;>
      simp [hschemene s hurl, hdig, hurl, hpok, hgf, hgj]
  · intro s hne hdig hurl
    unfold toJql
    simp [hne, hdig, hurl]

/-- C5 witness: the amended resolution rules at concrete inputs of each
kind, including a URL whose empty authority makes parsing fail and a URL
whose only `?` sits inside the fragment. -/
theorem C5_witness :
    toJql "123" = "filter=123" ∧
    toJql "https://x.test/issues/?filter=42" = "filter=42" ∧
    toJql "https://x.test/issues/?jql=project%20%3D%20AB" = "project = AB" ∧
    toJql "http://?filter=42" = "http://?filter=42" ∧
    toJql "http://x.test/path#frag?filter=1" = "http://x.test/path#frag?filter=1" ∧
    toJql "project = AB" = "project = AB" := by
  refine ⟨C5_amended.1 "123" (by decide),
    C5_amended.2.1 "https://x.test/issues/?filter=42" "42" (by decide) (by decide)
      (by decide) (by decide) (by decide),
    ?_, ?_, ?_, ?_⟩
  · refine Eq.trans
      (C5_amended.2.2.1 "https://x.test/issues/?jql=project%20%3D%20AB" "project = AB"
        (by decide) (by decide) (by decide) ?_ (by decide) (by decide) (by decide)) rfl
    intro fid h
    have hnone : getQueryParam
        (cleanEnv "https://x.test/issues/?jql=project%20%3D%20AB") "filter" = none := by
      decide
    rw [hnone] at h
    exact Option.noConfusion h
  · have h := C5_amended.2.2.2.1 "http://?filter=42" (by decide) (by decide) (by decide)
    rw [h]
    decide
  · have h := C5_amended.2.2.2.2.1 "http://x.test/path#frag?filter=1" (by decide)
      (by decide) (by decide)
    rw [h]
    decide
  · have h := C5_amended.2.2.2.2.2 "project = AB" (by decide) (by decide) (by decide)
    rw [h]
    decide

/-- C6: cache round-trip and TTL semantics.  After `set(K, V, T)` at
instant `now` with positive `T`, a `get(K)` at or before `now + T` returns
the stored value unchanged and leaves the cache untouched; a `get(K)`
strictly after `now + T` reports absent and removes the entry; a TTL of
zero stores a never-expiring entry.  (`0 ≤ now` reflects that `Date.now()`
is nonnegative, keeping `now + T` away from the never-expire sentinel.) -/
theorem C6_cache_roundtrip {α : Type} (c : List (String × CacheEntry α)) (k : String)
    (v : α) (T now now2 : Int) (hnodup : (c.map Prod.fst).Nodup)
    (hT : 0 < T) (hnow : 0 ≤ now) :
    (now2 ≤ now + T →
      cacheGet (cacheSet c k v T now) k now2 = (some v, cacheSet c k v T now)) ∧
    (now + T < now2 →
      (cacheGet (cacheSet c k v T now) k now2).1 = none ∧
      mapGet (cacheGet (cacheSet c k v T now) k now2).2 k = none) ∧
    (∀ t3 : Int, (cacheGet (cacheSet c k v 0 now) k t3).1 = some v) := by
  have hTne : ¬ T = 0 := by omega
  have hexp : ¬ now + T = 0 := by omega
  have hset : cacheSet c k v T now = mapSet c k ⟨v, now + T⟩ := by
    unfold cacheSet
    rw [if_neg hTne]
  refine ⟨?_, ?_, ?_⟩
  · intro hle
    have hngt : ¬ now2 > now + T := not_lt.mpr hle
    rw [hset]
    unfold cacheGet
    rw [mapGet_mapSet]
    simp [hexp, hngt]
  · intro hlt
    rw [hset]
    unfold cacheGet
    rw [mapGet_mapSet]
    simp [hexp, hlt]
    exact mapGet_eq_none_of_not_mem (mapDelete_not_mem (mapSet_keys_nodup k _ hnodup))
  · intro t3
    have hset0 : cacheSet c k v 0 now = mapSet c k ⟨v, 0⟩ := by
      unfold cacheSet
      rw [if_pos rfl]
    rw [hset0]
    unfold cacheGet
    rw [mapGet_mapSet]
    simp

/-- C6 witness: a concrete set/get round-trip with TTL 60000 ms and with
TTL 0. -/
theorem C6_witness :
    cacheGet (cacheSet ([] : List (String × CacheEntry Nat)) "k" 7 60000 1000) "k" 50000
      = (some 7, cacheSet [] "k" 7 60000 1000) ∧
    (cacheGet (cacheSet ([] : List (String × CacheEntry Nat)) "k" 7 60000 1000) "k" 61001).1
      = none ∧
    mapGet (cacheGet (cacheSet ([] : List (String × CacheEntry Nat)) "k" 7 60000 1000)
      "k" 61001).2 "k" = none ∧
    (cacheGet (cacheSet ([] : List (String × CacheEntry Nat)) "k" 7 0 1000) "k" 999999).1
      = some 7 := by
  refine ⟨(C6_cache_roundtrip ([] : List (String × CacheEntry Nat)) "k" 7 60000 1000 50000
      List.nodup_nil (by decide) (by decide)).1 (by decide),
    ((C6_cache_roundtrip ([] : List (String × CacheEntry Nat)) "k" 7 60000 1000 61001
      List.nodup_nil (by decide) (by decide)).2.1 (by decide)).1,
    ((C6_cache_roundtrip ([] : List (String × CacheEntry Nat)) "k" 7 60000 1000 61001
      List.nodup_nil (by decide) (by decide)).2.1 (by decide)).2,
    (C6_cache_roundtrip ([] : List (String × CacheEntry Nat)) "k" 7 60000 1000 0
      List.nodup_nil (by decide) (by decide)).2.2 999999⟩

/-- C7: along every reachable schedule of the bounded fan-out, the number
of issues whose pagination pipelines are simultaneously in flight never
exceeds the server-side bound; the bound is the environment value clamped
into 1–10 (defaulting to 5 when unset), and the bound handed to the
fan-out ignores the client-supplied concurrency parameter. -/
theorem C7_concurrency_bound {α : Type} (env : Option Int) (items : List α)
    (s : PoolState α) (h : PoolReach (moversConcurrency env) (poolInit items) s) :
    s.inflight.length ≤ moversConcurrency env ∧
    1 ≤ moversConcurrency env ∧ moversConcurrency env ≤ 10 ∧
    moversConcurrency none = 5 ∧
    (∀ clientRaw : Option String, aggregationPoolBound env clientRaw = moversConcurrency env) := by
  refine ⟨poolReach_inflight_le h, ?_, ?_, rfl, fun _ => rfl⟩
  · unfold moversConcurrency
    rcases env with _ | v
    · decide
    · have h1 : (1 : Int) ≤ max 1 (min 10 v) := le_max_left _ _
      omega
  · unfold moversConcurrency
    rcases env with _ | v
    · decide
    · have h2 : max 1 (min 10 v) ≤ 10 := max_le (by norm_num) (min_le_left _ _)
      omega

/-- C7 witness: a concrete two-step schedule (start one item, then start a
second) under the default bound stays within it. -/
theorem C7_witness :
    PoolReach (moversConcurrency none) (poolInit [1, 2, 3])
      ⟨[3], [2, 1], ([] : List Nat)⟩ ∧
    ([2, 1] : List Nat).length ≤ moversConcurrency none ∧
    moversConcurrency none = 5 := by
  have hr : PoolReach (moversConcurrency none) (poolInit [1, 2, 3])
      ⟨[3], [2, 1], ([] : List Nat)⟩ :=
    PoolReach.step
      (PoolReach.step PoolReach.refl (PoolStep.start 1 [2, 3] [] [] (by decide)))
      (PoolStep.start 2 [3] [1] [] (by decide))
  have h := C7_concurrency_bound none [1, 2, 3] _ hr
  exact ⟨hr, h.1, h.2.2.2.1⟩

/-- C8 counterexample: pagination does not terminate for every responder
whose pages are all finite — a responder that always returns one event and
reports a total two beyond the current offset keeps the loop running for
every amount of fuel. -/
theorem C8_counterexample : ¬ paginateTerminates growingTotalResponder := by
  rintro ⟨fuel, hs, h⟩
  unfold paginate at h
  rw [paginateGo_growing_none fuel 0 []] at h
  exact Option.noConfusion h

/-- C8 (amended): pagination starts at offset 0 with fixed page size 100
and advances by the number of events actually returned; a zero-event page
ends the stream even when the offset has not reached the reported total,
and a nonempty page continues only while the advanced offset is below the
reported total.  The loop terminates whenever the reported totals are
bounded by a fixed `T` — in particular for the real API's constant total —
but not for every finite-page response sequence. -/
theorem C8_amended :
    (∀ (resp : Nat → Nat → Page) (fuel startAt : Nat) (acc : List History),
      (resp startAt 100).values = [] →
      paginateGo resp (fuel + 1) startAt acc = some acc) ∧
    (∀ (resp : Nat → Nat → Page) (fuel startAt : Nat) (acc : List History),
      (resp startAt 100).values ≠ [] →
      startAt + (resp startAt 100).values.length < (resp startAt 100).total →
      paginateGo resp (fuel + 1) startAt acc =
        paginateGo resp fuel (startAt + (resp startAt 100).values.length)
          (acc ++ (resp startAt 100).values)) ∧
    (∀ (resp : Nat → Nat → Page) (fuel startAt : Nat) (acc : List History),
      (resp startAt 100).values ≠ [] →
      ¬ startAt + (resp startAt 100).values.length < (resp startAt 100).total →
      paginateGo resp (fuel + 1) startAt acc = some (acc ++ (resp startAt 100).values)) ∧
    (∀ (resp : Nat → Nat → Page) (T : Nat), (∀ s, (resp s 100).total ≤ T) →
      (paginate resp (T + 1)).isSome = true) := by
  refine ⟨?_, ?_, ?_, ?_⟩
  · intro resp fuel startAt acc h
    exact paginateGo_empty_page h
  · intro resp fuel startAt acc h hlt
    have h0 : ¬ (resp startAt 100).values.length = 0 := by
      simpa [List.length_eq_zero] using h
    simp [paginateGo, h0, hlt]
  · intro resp fuel startAt acc h hge
    have h0 : ¬ (resp startAt 100).values.length = 0 := by
      simpa [List.length_eq_zero] using h
    simp [paginateGo, h0, hge]
  · intro resp T hT
    exact paginateGo_isSome_of_total_le hT (T + 1) 0 [] (by omega) (by omega)

/-- C8 witness: the stop conditions and bounded-total termination at a
concrete one-page responder. -/
theorem C8_witness :
    paginateGo (fun _ _ => Page.mk 3 []) 1 0 [] = some [] ∧
    (paginate (fun _ _ => Page.mk 0 []) 1).isSome = true :=
  ⟨C8_amended.1 (fun _ _ => Page.mk 3 []) 0 0 [] rfl,
   C8_amended.2.2.2 (fun _ _ => Page.mk 0 []) 0 (fun _ => Nat.le_refl 0)⟩

/-- A missing, empty, or whitespace-only `filter` request parameter. -/
def blankFilter : Option String → Bool
  | none => true
  | some s => decide (jsTrim s = "")

/-- C9: an empty or blank `filter` makes the handler answer a 400
validation error, and the response is the same for every choice of remote
search and changelog collaborators — no remote call can influence (or be
required for) the answer. -/
theorem C9_blank_filter_rejected (filter : Option String) (hb : blankFilter filter = true)
    (search1 search2 : String → Int → List IssueRef)
    (chg1 chg2 : String → Nat → Nat → Page) (fuel1 fuel2 : Nat)
    (fromP toP nfP ntP : Option String) (since untl : TimeBound)
    (limitRaw maxIssuesRaw : Option String) :
    (∃ msg, moversHandler search1 chg1 fuel1 filter fromP toP nfP ntP since untl
        limitRaw maxIssuesRaw = MoversResponse.err 400 msg) ∧
    moversHandler search1 chg1 fuel1 filter fromP toP nfP ntP since untl
        limitRaw maxIssuesRaw =
      moversHandler search2 chg2 fuel2 filter fromP toP nfP ntP since untl
        limitRaw maxIssuesRaw := by
  rcases filter with _ | s
  · exact ⟨⟨"Missing required query param: filter", rfl⟩, rfl⟩
  · have hts : jsTrim s = "" := by simpa [blankFilter] using hb
    by_cases hs : s = ""
    · subst hs
      exact ⟨⟨"Missing required query param: filter", rfl⟩, rfl⟩
    · have hj : toJql s = "" := toJql_of_blank hts
      refine ⟨⟨"Invalid filter/JQL", ?_⟩, ?_⟩ <;>
        simp [moversHandler, moversValidate, hs, hj]

/-- C9 witness: a whitespace-only filter is rejected with a 400 and the
response does not depend on the remote collaborators. -/
theorem C9_witness :
    (∃ msg, moversHandler (fun _ _ => []) (fun _ _ _ => Page.mk 0 []) 5 (some "   ")
        none none none none none none none none = MoversResponse.err 400 msg) ∧
    moversHandler (fun _ _ => []) (fun _ _ _ => Page.mk 0 []) 5 (some "   ")
        none none none none none none none none =
      moversHandler (fun _ _ => [IssueRef.mk "1" "A"]) (fun _ _ _ => Page.mk 7 []) 9
        (some "   ") none none none none none none none none :=
  C9_blank_filter_rejected (some "   ") (by decide)
    (fun _ _ => []) (fun _ _ => [IssueRef.mk "1" "A"])
    (fun _ _ _ => Page.mk 0 []) (fun _ _ _ => Page.mk 7 []) 5 9
    none none none none none none none none

/-- C10: a supplied numeric parameter that parses to `NaN` or to `0` is
replaced by that parameter's default (limit 20, maxIssues 150, concurrency
0, ttl 60 s — so `ttl=0` yields a 60 s expiry, not a never-expiring
entry); only the upper cap is applied, a negative parse passes through
unchanged. -/
theorem C10_numeric_param_defaults (s : String) :
    ((parseIntJS s = none ∨ parseIntJS s = some 0) →
      limitOf (some s) = 20 ∧ maxIssuesOf (some s) = 150 ∧
      concurrencyOf (some s) = 0 ∧ ttlMsOf (some s) = 60 * 1000) ∧
    (∀ k : Int, parseIntJS s = some k → k < 0 →
      limitOf (some s) = k ∧ maxIssuesOf (some s) = k ∧
      concurrencyOf (some s) = k ∧ ttlMsOf (some s) = k * 1000) := by
  constructor
  · rintro (h | h) <;> by_cases hs : s = "" <;>
      simp [limitOf, maxIssuesOf, concurrencyOf, ttlMsOf, numParam, hs, h] <;> decide
  · intro k hk hneg
    have hs : ¬ s = "" := by
      intro he
      rw [he] at hk
      exact absurd hk (by simp [parseIntJS])
    have hk0 : ¬ k = 0 := by omega
    simp only [limitOf, maxIssuesOf, concurrencyOf, ttlMsOf, numParam, hs, if_false, hk, hk0]
    refine ⟨?_, ?_, ?_, ?_⟩ <;> omega

/-- C10 witness: `0` falls back to every parameter's default and `-5`
passes through the missing lower bound. -/
theorem C10_witness :
    (limitOf (some "0") = 20 ∧ maxIssuesOf (some "0") = 150 ∧
      concurrencyOf (some "0") = 0 ∧ ttlMsOf (some "0") = 60 * 1000) ∧
    (limitOf (some "-5") = -5 ∧ maxIssuesOf (some "-5") = -5 ∧
      concurrencyOf (some "-5") = -5 ∧ ttlMsOf (some "-5") = -5 * 1000) :=
  ⟨(C10_numeric_param_defaults "0").1 (Or.inr (by decide)),
   (C10_numeric_param_defaults "-5").2 (-5) (by decide) (by decide)⟩
